import Mathlib

/-
Verification of the turn-based multiplayer code-guessing game (src/main.rs).

The Rust source is shallowly embedded below.  Machine integers (u8, u32,
usize) are modelled as Nat; Rust saturating_sub and the total Nat
subtraction agree.  Digits are Fin 10 and a code is a function from
Fin 4 into digits, mirroring the Rust array [u8; 4] whose entries are
always decimal digits.  Console input/output, pacing delays and the
outer menu loop are external collaborators; the state-changing effect of
the post-game menu choice that keeps the match going (choice 1: assign
the rank, remove the winner, append it to the completed list) is inlined
into the win branch of the turn step, exactly as run_game drives it.
-/

abbrev Digit := Fin 10

/-- Rust: type Guess = [u8; 4] (entries are decimal digits). -/
abbrev Guess := Fin 4 → Digit

/-- Rust: type Score = (u8, u8). -/
abbrev Score := Nat × Nat

instance : DecidableEq Guess := fun a b =>
  Fintype.decidablePiFintype a b

/-- Membership of a digit value in the secret: the Rust loop fills the
boolean array secret_counts so that secret_counts[d] holds exactly when
some entry of the secret equals d. -/
def presence (secret : Guess) (d : Digit) : Prop :=
  ∃ j : Fin 4, secret j = d

instance (secret : Guess) (d : Digit) : Decidable (presence secret d) := by
  unfold presence
  infer_instance

/-- Count of indices where guess and secret agree (variable
correct_position of calculate_score). -/
def correct_position (guess secret : Guess) : Nat :=
  (Finset.univ.filter fun i : Fin 4 => guess i = secret i).card

/-- Count of guess positions whose digit value occurs anywhere in the
secret (variable total_correct_digits of calculate_score). -/
def total_correct_digits (guess secret : Guess) : Nat :=
  (Finset.univ.filter fun i : Fin 4 => presence secret (guess i)).card

/-- Rust calculate_score: returns (digits at correct position, digits
correct but at a wrong position), the latter computed by the subtraction
total_correct_digits - correct_position. -/
def calculate_score (guess secret : Guess) : Score :=
  (correct_position guess secret,
   total_correct_digits guess secret - correct_position guess secret)

/-- Every positional match is in particular a value match, so the
counter subtracted in calculate_score never exceeds the minuend. -/
theorem correct_position_le_total (guess secret : Guess) :
    correct_position guess secret ≤ total_correct_digits guess secret := by
  unfold correct_position total_correct_digits
  apply Finset.card_le_card
  intro i hi
  rw [Finset.mem_filter] at hi ⊢
  exact ⟨hi.1, ⟨i, hi.2.symm⟩⟩

theorem correct_position_le_four (guess secret : Guess) :
    correct_position guess secret ≤ 4 := by
  unfold correct_position
  calc (Finset.univ.filter fun i : Fin 4 => guess i = secret i).card
      ≤ (Finset.univ : Finset (Fin 4)).card := Finset.card_filter_le _ _
    _ = 4 := by simp

theorem total_correct_le_four (guess secret : Guess) :
    total_correct_digits guess secret ≤ 4 := by
  unfold total_correct_digits
  calc (Finset.univ.filter fun i : Fin 4 => presence secret (guess i)).card
      ≤ (Finset.univ : Finset (Fin 4)).card := Finset.card_filter_le _ _
    _ = 4 := by simp

/-- With an injective guess, the total-match counter is the size of the
intersection of the digit sets of guess and secret. -/
theorem total_correct_eq_card_inter (guess secret : Guess)
    (hg : Function.Injective guess) :
    total_correct_digits guess secret =
      ((Finset.univ.image guess) ∩ (Finset.univ.image secret)).card := by
  unfold total_correct_digits
  have h1 : (Finset.univ.filter fun i : Fin 4 => presence secret (guess i)).card
      = ((Finset.univ.filter fun i : Fin 4 => presence secret (guess i)).image guess).card :=
    (Finset.card_image_of_injective _ hg).symm
  rw [h1, ← Finset.filter_image]
  congr 1
  ext d
  simp only [Finset.mem_filter, Finset.mem_inter, Finset.mem_image,
    Finset.mem_univ, true_and, presence]

theorem correct_position_comm (g s : Guess) :
    correct_position g s = correct_position s g := by
  unfold correct_position
  congr 1
  apply Finset.filter_congr
  intro i _
  constructor
  · intro h
    simp only [h]
  · intro h
    simp only [h]

theorem calculate_score_self (s : Guess) : calculate_score s s = (4, 0) := by
  unfold calculate_score correct_position total_correct_digits
  have h1 : (Finset.univ.filter fun i : Fin 4 => s i = s i) = Finset.univ := by
    simp
  have h2 : (Finset.univ.filter fun i : Fin 4 => presence s (s i)) = Finset.univ := by
    apply Finset.filter_true_of_mem
    intro i _
    exact ⟨i, rfl⟩
  rw [h1, h2]
  simp

/-- Concrete distinct-digit codes used as witnesses. -/
def c1234 : Guess := ![1, 2, 3, 4]

def c0456 : Guess := ![0, 4, 5, 6]

/-- C6: for every secret with 4 pairwise-distinct digits,
score(secret, secret) = (4, 0); and for all 4-digit guess/secret pairs,
positional_matches = 4 holds iff guess equals secret, so the win
condition fires exactly on an exact guess. -/
theorem C6_win_condition :
    (∀ s : Guess, Function.Injective s → calculate_score s s = (4, 0)) ∧
    (∀ g s : Guess, (calculate_score g s).1 = 4 ↔ g = s) := by
  constructor
  · intro s _
    exact calculate_score_self s
  · intro g s
    constructor
    · intro h
      have hcard : (Finset.univ.filter fun i : Fin 4 => g i = s i).card
          = Fintype.card (Fin 4) := by
        simpa [calculate_score, correct_position] using h
      have huniv := Finset.eq_univ_of_card _ hcard
      funext i
      have hi : i ∈ Finset.univ.filter fun i : Fin 4 => g i = s i := by
        rw [huniv]
        exact Finset.mem_univ i
      exact (Finset.mem_filter.mp hi).2
    · intro h
      subst h
      rw [calculate_score_self]

theorem C6_win_condition_witness :
    Function.Injective c1234 ∧ calculate_score c1234 c1234 = (4, 0) :=
  ⟨by decide, C6_win_condition.1 c1234 (by decide)⟩

/-- C7: for guess/secret pairs that each have 4 pairwise-distinct
digits, the total match count (positional plus value-only) is symmetric
in guess and secret, and the positional match count is itself
symmetric. -/
theorem C7_score_symmetry :
    ∀ g s : Guess, Function.Injective g → Function.Injective s →
      ((calculate_score g s).1 + (calculate_score g s).2
        = (calculate_score s g).1 + (calculate_score s g).2) ∧
      (calculate_score g s).1 = (calculate_score s g).1 := by
  intro g s hg hs
  have htot : total_correct_digits g s = total_correct_digits s g := by
    rw [total_correct_eq_card_inter g s hg, total_correct_eq_card_inter s g hs,
      Finset.inter_comm]
  have h1 := correct_position_le_total g s
  have h2 := correct_position_le_total s g
  have hpos := correct_position_comm g s
  constructor
  · unfold calculate_score
    dsimp only
    omega
  · unfold calculate_score
    dsimp only
    exact hpos

theorem C7_score_symmetry_witness :
    Function.Injective c1234 ∧ Function.Injective c0456 ∧
      (calculate_score c1234 c0456).1 + (calculate_score c1234 c0456).2
        = (calculate_score c0456 c1234).1 + (calculate_score c0456 c1234).2 :=
  ⟨by decide, by decide,
    (C7_score_symmetry c1234 c0456 (by decide) (by decide)).1⟩

/-- C10: for every pair of 4-digit codes, including codes with repeated
digits, the total correct-digit count dominates the positional-match
count, so the subtraction inside calculate_score never underflows and
both score components lie in [0, 4]. -/
theorem C10_no_underflow :
    ∀ g s : Guess,
      correct_position g s ≤ total_correct_digits g s ∧
      (calculate_score g s).1 ≤ 4 ∧ (calculate_score g s).2 ≤ 4 ∧
      (calculate_score g s).1 + (calculate_score g s).2
        = total_correct_digits g s := by
  intro g s
  have h1 := correct_position_le_total g s
  have h2 := correct_position_le_four g s
  have h3 := total_correct_le_four g s
  unfold calculate_score
  dsimp only
  refine ⟨h1, h2, ?_, ?_⟩ <;> omega

/-
Guess Validator (get_player_guess in the source).  The Rust function
loops, re-prompting on each rejected attempt; one iteration of that loop
body is embedded as a function from the (already trimmed) raw input to
either the digit list or the kind of rejection that was printed.  The
three rejection messages of the source are named as in the spec:
WrongLength for the length check, NonDigitCharacter for the to_digit
failure, RepeatedDigit for the seen_digits hit.
-/

inductive GuessError where
  | WrongLength
  | NonDigitCharacter
  | RepeatedDigit
deriving DecidableEq

/-- Rust char::to_digit(10): some digit value when the character is an
ASCII digit 0-9 (code points 48-57), none otherwise. -/
def char_to_digit (c : Char) : Option Digit :=
  if h : 48 ≤ c.toNat ∧ c.toNat < 58 then some ⟨c.toNat - 48, by omega⟩
  else none

/-- Rust String::len of the trimmed input: the UTF-8 byte length. -/
def byte_len (cs : List Char) : Nat :=
  (cs.map Char.utf8Size).sum

/-- The character loop of get_player_guess: walks the input left to
right, maintaining the seen_digits array and the collected digits, and
stops at the first offending character (non-digit, or digit seen
before). -/
def scan_digits : List Char → (Digit → Bool) → List Digit →
    Except GuessError (List Digit)
  | [], _, digits => .ok digits
  | c :: rest, seen_digits, digits =>
    match char_to_digit c with
    | some d =>
      if seen_digits d then .error .RepeatedDigit
      else scan_digits rest (fun x => if x = d then true else seen_digits x)
        (digits ++ [d])
    | none => .error .NonDigitCharacter

/-- One iteration of get_player_guess on a trimmed input line: the
length check comes first, then the character scan. -/
def get_player_guess (input : List Char) : Except GuessError (List Digit) :=
  if byte_len input ≠ 4 then .error .WrongLength
  else scan_digits input (fun _ => false) []

/-- The character scan fails on an extended input whenever it already
fails on the prefix, with the same error: the first offending character,
read left to right, decides the rejection kind. -/
theorem scan_digits_error_append (xs ys : List Char) (seen : Digit → Bool)
    (ds : List Digit) (e : GuessError)
    (h : scan_digits xs seen ds = .error e) :
    scan_digits (xs ++ ys) seen ds = .error e := by
  induction xs generalizing seen ds with
  | nil => simp [scan_digits] at h
  | cons c rest ih =>
    rw [List.cons_append]
    unfold scan_digits at h ⊢
    cases hc : char_to_digit c with
    | none =>
      rw [hc] at h
      exact h
    | some d =>
      rw [hc] at h
      replace h : (if seen d = true then Except.error GuessError.RepeatedDigit
          else scan_digits rest (fun x => if x = d then true else seen x)
            (ds ++ [d])) = Except.error e := h
      show (if seen d = true then Except.error GuessError.RepeatedDigit
          else scan_digits (rest ++ ys) (fun x => if x = d then true else seen x)
            (ds ++ [d])) = Except.error e
      by_cases hs : seen d = true
      · rw [if_pos hs] at h
        rw [if_pos hs]
        exact h
      · rw [if_neg hs] at h
        rw [if_neg hs]
        exact ih _ _ h

/-- C3 counterexample: the input 11a2 has byte length 4 and contains the
non-digit character a, yet it is rejected with RepeatedDigit, because
the scan stops at the repeated 1 before reaching the non-digit: the
claim that every 4-character input containing a non-digit character is
rejected with NonDigitCharacter fails here. -/
theorem C3_validator_cex :
    byte_len (String.toList "11a2") = 4 ∧
    ('a' ∈ String.toList "11a2") ∧
    char_to_digit 'a' = none ∧
    get_player_guess (String.toList "11a2") = .error .RepeatedDigit ∧
    get_player_guess (String.toList "11a2") ≠ .error .NonDigitCharacter := by
  refine ⟨by decide, by decide, rfl, rfl, ?_⟩
  intro h
  rw [show get_player_guess (String.toList "11a2")
      = .error .RepeatedDigit from rfl] at h
  exact absurd (Except.error.inj h) (by decide)

/-- C3 (amended): the Guess Validator checks WrongLength first (trimmed
input whose byte length is not 4); otherwise it scans the characters
left to right and the first offending character determines the error,
NonDigitCharacter when that character is not an ASCII digit and
RepeatedDigit when its digit value already occurred; on success it
returns the 4 digits in input order.  In particular 12a3 is rejected
with NonDigitCharacter, 1123 with RepeatedDigit, 123 with WrongLength,
and 0493 is accepted as the digits 0, 4, 9, 3. -/
theorem C3_validator :
    (∀ cs : List Char, byte_len cs ≠ 4 →
        get_player_guess cs = .error .WrongLength) ∧
    (∀ xs ys seen ds e, scan_digits xs seen ds = .error e →
        scan_digits (xs ++ ys) seen ds = .error e) ∧
    get_player_guess (String.toList "12a3") = .error .NonDigitCharacter ∧
    get_player_guess (String.toList "1123") = .error .RepeatedDigit ∧
    get_player_guess (String.toList "123") = .error .WrongLength ∧
    get_player_guess (String.toList "0493") = .ok [0, 4, 9, 3] := by
  refine ⟨?_, fun xs ys seen ds e h =>
    scan_digits_error_append xs ys seen ds e h, rfl, rfl, rfl, rfl⟩
  intro cs h
  unfold get_player_guess
  rw [if_pos h]

theorem C3_validator_witness :
    get_player_guess (String.toList "12345") = .error .WrongLength :=
  C3_validator.1 (String.toList "12345") (by decide)

/-
Turn/Match State Machine (run_game in the source).  The loop variables
of run_game form the state; one iteration of the game loop is the step
function below, parameterised by the accepted guess.  The win branch
inlines the state effect of post_game_menu choice 1 (assign the rank to
the player at the winner index, remove it from the roster, append it to
the completed list, report whether the roster is now empty), which is
the only menu choice that keeps the same match going.
-/

structure Player where
  name : String
  secret_code : Guess
  rank : Option Nat
deriving DecidableEq

instance : Inhabited Player :=
  ⟨{ name := "", secret_code := fun _ => 0, rank := none }⟩

structure TurnState where
  players : List Player
  current_player_index : Nat
  round_number : Nat
  total_guesses : Nat
  rank_to_assign : Nat
  last_assigned_round : Nat
  completed_players : List Player
deriving DecidableEq

inductive StepOut where
  | done (s : TurnState)
  | next (s : TurnState)

/-- The state carried by a step outcome. -/
def StepOut.state : StepOut → TurnState
  | .done s => s
  | .next s => s

/-- Whether the step ended the match loop. -/
def StepOut.isDone : StepOut → Bool
  | .done _ => true
  | .next _ => false

/-- Lines 299-302 of the source: reset the turn pointer to 0 when it is
no longer a valid index after a removal. -/
def normalize_index (s : TurnState) : TurnState :=
  if s.current_player_index ≥ s.players.length then
    { s with current_player_index := 0 }
  else s

/-- The ranking decision of the win branch (lines 339-355): given the
current round, the round of the last rank assignment and the next rank
to hand out, return the rank assigned now, the next rank counter and
the new last-assigned round.  Rust saturating_sub on usize is Nat
subtraction. -/
def assign_rank (round_number last_assigned_round rank_to_assign : Nat) :
    Nat × Nat × Nat :=
  if round_number > last_assigned_round then
    (rank_to_assign, rank_to_assign + 1, round_number)
  else
    let r := rank_to_assign - 1
    (if r = 0 then 1 else r, rank_to_assign, round_number)

/-- The player whose turn it is, after the pointer has been
re-normalized: players[current_player_index] at line 304. -/
def current_player_of (s : TurnState) : Player :=
  (normalize_index s).players.getD (normalize_index s).current_player_index
    default

/-- The part of the loop body from the guess-counter increment (line
306) onward, for a state whose roster is non-empty and whose pointer
has already been re-normalized: score the guess against the secret of
the current player; on a full positional match run the ranking logic
and the menu-choice-1 removal, otherwise do the round-completion check
and advance the turn pointer. -/
def step_guess (s : TurnState) (g : Guess) : StepOut :=
  let current_player := s.players.getD s.current_player_index default
  let total_guesses := s.total_guesses + 1
  if (calculate_score g current_player.secret_code).1 = 4 then
    let ar := assign_rank s.round_number s.last_assigned_round s.rank_to_assign
    let remaining := s.players.eraseIdx s.current_player_index
    let completed := s.completed_players ++ [{ current_player with rank := some ar.1 }]
    if remaining = [] then
      .done { s with
              players := remaining,
              completed_players := completed,
              total_guesses := total_guesses,
              rank_to_assign := ar.2.1,
              last_assigned_round := ar.2.2 }
    else
      .next { s with
              players := remaining,
              completed_players := completed,
              total_guesses := total_guesses,
              rank_to_assign := ar.2.1,
              last_assigned_round := ar.2.2,
              current_player_index := s.current_player_index % remaining.length }
  else
    .next { s with
            total_guesses := total_guesses,
            round_number :=
              if total_guesses % s.players.length = 0 then s.round_number + 1
              else s.round_number,
            current_player_index := (s.current_player_index + 1) % s.players.length }

/-- One iteration of the game loop of run_game: the empty-roster exit,
the last-remaining-player auto-finish, then the guess phase on the
re-normalized state. -/
def game_step (s : TurnState) (g : Guess) : StepOut :=
  if s.players = [] then .done s
  else if s.players.length = 1 ∧ s.players.headI.rank = none then
    .done { s with
            players := [],
            completed_players := s.completed_players
              ++ [{ s.players.headI with rank := some s.rank_to_assign }] }
  else step_guess (normalize_index s) g

theorem normalize_index_players (s : TurnState) :
    (normalize_index s).players = s.players := by
  unfold normalize_index
  split <;> rfl

theorem normalize_index_round (s : TurnState) :
    (normalize_index s).round_number = s.round_number := by
  unfold normalize_index
  split <;> rfl

theorem normalize_index_total (s : TurnState) :
    (normalize_index s).total_guesses = s.total_guesses := by
  unfold normalize_index
  split <;> rfl

theorem normalize_index_valid (s : TurnState) (h : s.players ≠ []) :
    (normalize_index s).current_player_index
      < (normalize_index s).players.length := by
  unfold normalize_index
  split
  · simpa using List.length_pos.mpr h
  · simp only [not_le] at *
    omega

/-- C5: after every transition of the turn step (taking a guess,
advancing the turn pointer, or removing a player anywhere in the
roster), the current-turn index is a valid index into the active-player
sequence whenever that sequence is non-empty: the pointer is reduced
modulo the new length after a removal and never left dangling. -/
theorem C5_index_invariant (s : TurnState) (g : Guess) :
    (game_step s g).state.players = [] ∨
    (game_step s g).state.current_player_index
      < (game_step s g).state.players.length := by
  unfold game_step
  split_ifs with h1 h2
  · left
    exact h1
  · left
    rfl
  · have hlen : 0 < (normalize_index s).players.length := by
      rw [normalize_index_players]
      exact List.length_pos.mpr h1
    simp only [step_guess, StepOut.state]
    split_ifs with hwin hrem hmul
    · left
      exact hrem
    · right
      exact Nat.mod_lt _ (List.length_pos.mpr hrem)
    · right
      exact Nat.mod_lt _ hlen
    · right
      exact Nat.mod_lt _ hlen

/-- C1 (amended): when the guess phase is reached, the round counter of
the resulting state increments precisely when the guess is non-winning
and the incremented guess counter is an exact multiple of the
active-roster length (which a non-winning turn leaves unchanged, so it
is the length at the time the guess was taken); a winning guess never
increments the round counter, because the win branch of the loop skips
the round-completion check. -/
theorem C1_round_advancement (s : TurnState) (g : Guess)
    (h1 : ¬s.players = [])
    (h2 : ¬(s.players.length = 1 ∧ s.players.headI.rank = none)) :
    (game_step s g).state.round_number =
      if (calculate_score g (current_player_of s).secret_code).1 = 4
      then s.round_number
      else if (s.total_guesses + 1) % s.players.length = 0
      then s.round_number + 1
      else s.round_number := by
  unfold game_step
  rw [if_neg h1, if_neg h2]
  unfold current_player_of
  simp only [step_guess, StepOut.state, normalize_index_players,
    normalize_index_round, normalize_index_total]
  split_ifs <;> rfl

def pA : Player := { name := "A", secret_code := ![0, 1, 2, 3], rank := none }

def pB : Player := { name := "B", secret_code := ![4, 5, 6, 7], rank := none }

def pC : Player := { name := "C", secret_code := ![8, 9, 0, 1], rank := none }

/-- A reachable-shaped 3-player state: 2 guesses already taken in round
1, the turn pointer on the third player. -/
def c1cex_state : TurnState :=
  { players := [pA, pB, pC], current_player_index := 2, round_number := 1,
    total_guesses := 2, rank_to_assign := 1, last_assigned_round := 0,
    completed_players := [] }

/-- C1 counterexample: the third of three players submits a winning
guess; this guess makes the cumulative guess counter (3) an exact
multiple of the active-roster length read at the time the guess was
taken (3), yet the round counter does not advance, because the win
branch skips the round-completion check.  The claim demands that the
round advance independently of whether the guess won. -/
theorem C1_round_advancement_cex :
    (c1cex_state.total_guesses + 1) % c1cex_state.players.length = 0 ∧
    (calculate_score pC.secret_code
        (current_player_of c1cex_state).secret_code).1 = 4 ∧
    (game_step c1cex_state pC.secret_code).state.round_number
      = c1cex_state.round_number := by
  refine ⟨by decide, by decide, by decide⟩

def c1wit_state : TurnState :=
  { players := [pA, pB], current_player_index := 0, round_number := 1,
    total_guesses := 1, rank_to_assign := 1, last_assigned_round := 0,
    completed_players := [] }

theorem C1_round_advancement_witness :
    (game_step c1wit_state c1234).state.round_number = 2 := by
  have h := C1_round_advancement c1wit_state c1234 (by decide) (by decide)
  rw [h]
  decide

/-- The ranks that the Ranking Engine hands out, in order, for a
sequence of winning rounds, starting from a given next-rank counter and
last-assigned round (initially 1 and 0 in run_game). -/
def ranks_trace : List Nat → Nat → Nat → List Nat
  | [], _, _ => []
  | r :: rest, rank_to_assign, last_assigned_round =>
    let ar := assign_rank r last_assigned_round rank_to_assign
    ar.1 :: ranks_trace rest ar.2.1 ar.2.2

/-- C2: the Ranking Engine assigns ranks per round: a win in a round
strictly later than the round of the last assignment (or with no
assignment yet, since the last-assigned round starts at 0) gets the
next unused rank, advances the next-rank counter and records the round;
a win in the same round re-assigns the most recently given rank, the
computed previous rank clamped up to 1 when it would fall below 1,
without advancing the counter.  Wins in rounds 1,1,2,3,3,3 receive
ranks 1,1,2,3,3,3 in that order. -/
theorem C2_ranking :
    (∀ round last next, last < round →
        assign_rank round last next = (next, next + 1, round)) ∧
    (∀ round last next, ¬last < round →
        assign_rank round last next = (max 1 (next - 1), next, round)) ∧
    ranks_trace [1, 1, 2, 3, 3, 3] 1 0 = [1, 1, 2, 3, 3, 3] := by
  refine ⟨?_, ?_, by decide⟩
  · intro round last next h
    unfold assign_rank
    rw [if_pos h]
  · intro round last next h
    unfold assign_rank
    rw [if_neg h]
    dsimp only
    congr 1
    split
    · omega
    · omega

theorem C2_ranking_witness :
    (1 : Nat) < 2 ∧ assign_rank 2 1 7 = (7, 8, 2) ∧
    ¬(3 : Nat) < 3 ∧ assign_rank 3 3 5 = (4, 5, 3) := by
  refine ⟨by decide, ?_, by decide, ?_⟩
  · exact C2_ranking.1 2 1 7 (by decide)
  · have h := C2_ranking.2.1 3 3 5 (by decide)
    simpa using h

/-- C4: whenever exactly one active player remains and that player has
no rank yet, the step assigns the current next-rank value to that
player without requiring any winning guess (the guess argument is
arbitrary and unused), moves the player to the completed list, and the
match terminates with an empty roster; every entry of the completed
list then carries a rank, provided every previously completed entry
did. -/
theorem C4_auto_finish (s : TurnState) (p : Player) (g : Guess)
    (h1 : s.players = [p]) (h2 : p.rank = none)
    (hc : ∀ q ∈ s.completed_players, q.rank.isSome = true) :
    (game_step s g).isDone = true ∧
    (game_step s g).state.players = [] ∧
    (game_step s g).state.completed_players
      = s.completed_players ++ [{ p with rank := some s.rank_to_assign }] ∧
    ∀ q ∈ (game_step s g).state.completed_players, q.rank.isSome = true := by
  unfold game_step
  rw [h1]
  rw [if_neg (List.cons_ne_nil p []), if_pos ⟨by simp, by simp [List.headI, h2]⟩]
  refine ⟨rfl, rfl, rfl, ?_⟩
  intro q hq
  dsimp only [StepOut.state] at hq
  rcases List.mem_append.mp hq with hmem | hmem
  · exact hc q hmem
  · rw [List.mem_singleton.mp hmem]
    rfl

def c4wit_state : TurnState :=
  { players := [pB], current_player_index := 0, round_number := 3,
    total_guesses := 7, rank_to_assign := 2, last_assigned_round := 2,
    completed_players := [{ pA with rank := some 1 }] }

theorem C4_auto_finish_witness :
    (game_step c4wit_state c1234).isDone = true ∧
    (game_step c4wit_state c1234).state.players = [] ∧
    (game_step c4wit_state c1234).state.completed_players
      = c4wit_state.completed_players ++ [{ pB with rank := some 2 }] ∧
    ∀ q ∈ (game_step c4wit_state c1234).state.completed_players,
      q.rank.isSome = true := by
  have h := C4_auto_finish c4wit_state pB c1234 rfl rfl (by decide)
  exact h

/-- The retry loop of get_player_guess over a stream of raw input
lines: keep rejecting attempts until one validates, then build the
guess array [digits[0], digits[1], digits[2], digits[3]]. -/
def first_valid_guess : List (List Char) → Option Guess
  | [] => none
  | input :: rest =>
    match get_player_guess input with
    | .ok ds => some fun i => ds.getD i.val 0
    | .error _ => first_valid_guess rest

/-- A whole turn driven by a stream of raw input lines: the validator
loop consumes attempts until one is accepted, and only the accepted
guess is handed to the turn step. -/
def run_turn (s : TurnState) (inputs : List (List Char)) : Option StepOut :=
  match first_valid_guess inputs with
  | some g => some (game_step s g)
  | none => none

/-- C9: a raw input rejected by the Guess Validator (for any of the
three reasons) leaves the match state untouched: prepending the
rejected attempt to the input stream changes neither the guess that is
eventually accepted nor the outcome of the turn, so roster, turn
pointer, round counter and guess counter are all as if the rejected
attempt had never happened. -/
theorem C9_rejected_input_frame (s : TurnState) (input : List Char)
    (inputs : List (List Char)) (e : GuessError)
    (h : get_player_guess input = .error e) :
    first_valid_guess (input :: inputs) = first_valid_guess inputs ∧
    run_turn s (input :: inputs) = run_turn s inputs := by
  have h1 : first_valid_guess (input :: inputs) = first_valid_guess inputs := by
    show (match get_player_guess input with
        | Except.ok ds => some fun i : Fin 4 => ds.getD i.val 0
        | Except.error _ => first_valid_guess inputs) = first_valid_guess inputs
    rw [h]
  refine ⟨h1, ?_⟩
  unfold run_turn
  rw [h1]

theorem C9_rejected_input_frame_witness :
    get_player_guess (String.toList "12a3") = .error .NonDigitCharacter ∧
    run_turn c1wit_state (String.toList "12a3" :: [String.toList "1234"])
      = run_turn c1wit_state [String.toList "1234"] :=
  ⟨rfl, (C9_rejected_input_frame c1wit_state (String.toList "12a3")
      [String.toList "1234"] GuessError.NonDigitCharacter rfl).2⟩

/-
Final ranking display (lines 392-409): completed_players is sorted with
the stable standard-library sort by the key rank.unwrap_or(num_players);
a stable sort by a Nat key is embedded as insertion sort with the
corresponding non-strict key order.
-/

/-- The sort key p.rank.unwrap_or(num_players) of the final display. -/
def sort_key (num_players : Nat) (p : Player) : Nat :=
  p.rank.getD num_players

/-- Key order used by the final display sort. -/
def display_le (num_players : Nat) (a b : Player) : Prop :=
  sort_key num_players a ≤ sort_key num_players b

instance (n : Nat) : DecidableRel (display_le n) := fun a b =>
  Nat.decLe (sort_key n a) (sort_key n b)

instance (n : Nat) : IsTotal Player (display_le n) :=
  ⟨fun a b => Nat.le_total (sort_key n a) (sort_key n b)⟩

instance (n : Nat) : IsTrans Player (display_le n) :=
  ⟨fun _ _ _ hab hbc => Nat.le_trans hab hbc⟩

/-- The completed list as sorted for the final ranking display. -/
def final_display (num_players : Nat) (completed : List Player) : List Player :=
  completed.insertionSort (display_le num_players)

def c8u : Player := { name := "U", secret_code := c1234, rank := none }

def c8r : Player := { name := "R", secret_code := c0456, rank := some 2 }

def c8x : Player := { name := "X", secret_code := c1234, rank := some 1 }

/-- C8 counterexample: with player count 2, an unranked entry and an
entry ranked 2 share the sort key 2, and the stable sort leaves the
unranked entry first: it does not sort strictly after all ranked
entries. -/
theorem C8_final_sort_cex :
    c8u.rank = none ∧ c8r.rank = some 2 ∧
    final_display 2 [c8u, c8r] = [c8u, c8r] :=
  ⟨rfl, rfl, rfl⟩

/-- C8 (amended): the final display is sorted ascending by the key that
is the rank for ranked entries and the player count for unranked ones;
hence ranked entries appear in ascending rank order, and an unranked
entry sorts strictly after every entry whose rank is strictly below the
player count, though it may precede a ranked entry whose rank equals
the player count (equal keys, stable sort). -/
theorem C8_final_sort :
    (∀ n (l : List Player), List.Sorted (display_le n) (final_display n l)) ∧
    (∀ n (l : List Player) (i j : Fin (final_display n l).length) (r : Nat),
        ((final_display n l).get i).rank = none →
        ((final_display n l).get j).rank = some r →
        r < n → (j : Nat) < (i : Nat)) := by
  have hsorted : ∀ n (l : List Player),
      List.Sorted (display_le n) (final_display n l) := fun n l =>
    List.sorted_insertionSort (display_le n) l
  refine ⟨hsorted, ?_⟩
  intro n l i j r hi hj hr
  by_contra hcon
  push_neg at hcon
  have hne : (i : Nat) ≠ (j : Nat) := by
    intro hEq
    rw [Fin.ext hEq, hj] at hi
    exact Option.noConfusion hi
  have hlt : i < j := by
    rw [Fin.lt_def]
    omega
  have hrel := (hsorted n l).rel_get_of_lt hlt
  unfold display_le sort_key at hrel
  rw [hi, hj] at hrel
  simp only [Option.getD_none, Option.getD_some] at hrel
  omega

theorem C8_final_sort_witness :
    List.Sorted (display_le 2) (final_display 2 [c8u, c8r]) ∧ (0 : Nat) < 1 :=
  ⟨C8_final_sort.1 2 [c8u, c8r],
   C8_final_sort.2 3 [c8u, c8x] ⟨1, by decide⟩ ⟨0, by decide⟩ 1
     (by decide) (by decide) (by decide)⟩
